import Mathlib

/-!
Verification development for the Webflow CMS toolkit's import/upsert core.

The definitions below are a shallow embedding of the JavaScript source:

* `src/src/utils/webflow.js` — `WebflowClient.upsertItems`, `createItems`,
  `getAllItems` (the upsert reconciler, the create-only bulk importer and
  the paginated listing of the existing item set);
* the data-importer component — `transformData` and the dry-run branch of
  `runImport`.

Rows and field payloads are JavaScript objects with string values, embedded
as association lists `List (String × String)` (JS objects have no duplicate
keys; key insertion order is preserved).  JavaScript truthiness of a string
value is `s ≠ ""`; an absent property is `none`.  Remote calls are embedded
as an oracle `Nat → ... → Except String Unit` giving, for each row index,
either success or a thrown error message; the response payload of a
successful call is abstracted to `Unit` (no claim concerns its contents).
-/

namespace Webflow

/-- A row of import data / a field payload: a JS object with string values,
as an association list in key insertion order. -/
abbrev Row : Type := List (String × String)

/-- An existing CMS item as seen by the reconciler: `item.id` and
`item.fieldData?.slug` (`none` when the item has no slug property). -/
structure ExistingItem where
  id : String
  slug : Option String
deriving DecidableEq, Repr

/-- JavaScript truthiness of an optional string property: present and
non-empty. -/
def truthy : Option String → Bool
  | none => false
  | some s => s != ""

/-- The membership test of the `idSet` built by `upsertItems`
(`idSet.has(x)`). -/
def memStr (x : String) : List String → Bool
  | [] => false
  | y :: rest => x == y || memStr x rest

/-- The `idSet` of `upsertItems`: every existing item's `id` is added,
unconditionally. -/
def ids (existing : List ExistingItem) : List String :=
  existing.map (fun e => e.id)

/-- Whether an existing item registers an entry for key `s` in the
`slugToId` map: its slug is truthy and equals `s`. -/
def slugMatches (it : ExistingItem) (s : String) : Bool :=
  match it.slug with
  | some sl => sl != "" && sl == s
  | none => false

/-- One step of building the `slugToId` object: a later item with the same
truthy slug overwrites an earlier one, as JS object assignment does. -/
def slugStep (s : String) (acc : Option String) (it : ExistingItem) : Option String :=
  if slugMatches it s then some it.id else acc

/-- Lookup of key `s` in the `slugToId` object built by `upsertItems` from
the existing items (`if (item.fieldData?.slug) slugToId[item.fieldData.slug] = item.id`). -/
def slugToId (existing : List ExistingItem) (s : String) : Option String :=
  existing.foldl (slugStep s) none

/-- The destructuring `const { id: itemId, ...fieldData } = items[i]`:
the field payload is the row with its `id` key removed. -/
def eraseId (row : Row) : Row :=
  List.filter (fun kv => kv.1 != "id") row

/-- The remote call issued for one row: an update against an existing
identifier, or a create. -/
inductive IssuedCall where
  | update (targetId : String) (payload : Row)
  | create (payload : Row)
deriving DecidableEq, Repr

/-- The field payload carried by an issued call. -/
def IssuedCall.payload : IssuedCall → Row
  | .update _ p => p
  | .create p => p

/-- The first guard of the `upsertItems` decision:
`if (itemId && idSet.has(itemId)) existingId = itemId` where
`itemId` is the row's own `id` property. -/
def byIdOf (existing : List ExistingItem) (row : Row) : Option String :=
  match List.lookup "id" row with
  | some x => if x != "" && memStr x (ids existing) then some x else none
  | none => none

/-- The second guard of the `upsertItems` decision:
`else if (fieldData.slug && slugToId[fieldData.slug]) existingId = slugToId[fieldData.slug]`. -/
def bySlugOf (existing : List ExistingItem) (fieldData : Row) : Option String :=
  match List.lookup "slug" fieldData with
  | some s =>
    if s != "" then
      match slugToId existing s with
      | some t => if t != "" then some t else none
      | none => none
    else none
  | none => none

/-- The per-row decision of `upsertItems` (lines 183–204 of
`src/src/utils/webflow.js`): extract `itemId` and `fieldData` from the row;
set `existingId` to `itemId` when `itemId && idSet.has(itemId)`, else to
`slugToId[fieldData.slug]` when `fieldData.slug && slugToId[fieldData.slug]`;
issue an update against `existingId` when it is set, else a create. -/
def decideCall (existing : List ExistingItem) (row : Row) : IssuedCall :=
  let fieldData := eraseId row
  match byIdOf existing row with
  | some t => IssuedCall.update t fieldData
  | none =>
    match bySlugOf existing fieldData with
    | some t => IssuedCall.update t fieldData
    | none => IssuedCall.create fieldData

/-- A success entry pushed by the loops:
`{ success: true, index: i, data: result, action }`.  The constant
`success: true` flag and the abstract response payload are omitted. -/
structure SuccessEntry where
  index : Nat
  action : String
deriving DecidableEq, Repr

/-- An error entry pushed by the `catch` blocks:
`{ success: false, index: i, error: error.message, item: items[i] }`.
The constant `success: false` flag is omitted. -/
structure ErrorEntry where
  index : Nat
  error : String
  item : Row
deriving DecidableEq, Repr

/-- The row loop of `upsertItems` (lines 181–217): for each row, decide the
issued call, run it against the remote oracle, and push a success entry
(tagged `"updated"` or `"created"`) or an error entry.  `i` is the absolute
index of the first remaining row. -/
def upsertLoop (existing : List ExistingItem)
    (remote : Nat → IssuedCall → Except String Unit) :
    Nat → List Row → List SuccessEntry × List ErrorEntry
  | _, [] => ([], [])
  | i, row :: rest =>
    let c := decideCall existing row
    let p := upsertLoop existing remote (i + 1) rest
    match remote i c with
    | Except.ok _ =>
      (⟨i, match c with | IssuedCall.update _ _ => "updated" | IssuedCall.create _ => "created"⟩ :: p.1, p.2)
    | Except.error m => (p.1, ⟨i, m, row⟩ :: p.2)

/-- The value returned by `upsertItems`:
`{ results, errors, total, updated, created }` (the `_debug` object, which
only echoes prefixes of its inputs, is omitted). -/
structure UpsertResult where
  results : List SuccessEntry
  errors : List ErrorEntry
  total : Nat
  updated : Nat
  created : Nat
deriving DecidableEq, Repr

/-- `WebflowClient.upsertItems` (lines 154–223) given the already-fetched
existing item set and a remote oracle for the per-row update/create calls. -/
def upsertItems (existing : List ExistingItem) (rows : List Row)
    (remote : Nat → IssuedCall → Except String Unit) : UpsertResult :=
  let p := upsertLoop existing remote 0 rows
  { results := p.1
    errors := p.2
    total := rows.length
    updated := (p.1.filter (fun r => r.action == "updated")).length
    created := (p.1.filter (fun r => r.action == "created")).length }

/-- The row loop of `createItems` (lines 136–148): every row becomes a
create call; successes are tagged `"created"`. -/
def createLoop (remote : Nat → Row → Except String Unit) :
    Nat → List Row → List SuccessEntry × List ErrorEntry
  | _, [] => ([], [])
  | i, row :: rest =>
    let p := createLoop remote (i + 1) rest
    match remote i row with
    | Except.ok _ => (⟨i, "created"⟩ :: p.1, p.2)
    | Except.error m => (p.1, ⟨i, m, row⟩ :: p.2)

/-- The value returned by `createItems`: `{ results, errors, total }`. -/
structure CreateResult where
  results : List SuccessEntry
  errors : List ErrorEntry
  total : Nat
deriving DecidableEq, Repr

/-- `WebflowClient.createItems` (lines 132–151). -/
def createItems (rows : List Row) (remote : Nat → Row → Except String Unit) :
    CreateResult :=
  let p := createLoop remote 0 rows
  { results := p.1, errors := p.2, total := rows.length }

/-- An observable event of the upsert row loop: a remote call for a row, or
an awaited `setTimeout` delay (in milliseconds). -/
inductive Event where
  | call (i : Nat) (c : IssuedCall)
  | delay (ms : Nat)
deriving DecidableEq, Repr

/-- The event trace of the `upsertItems` row loop (lines 181–217): each row
issues its remote call; on success, if `i < n - 1` a 200 ms delay is awaited
before the next iteration; the `catch` path skips the delay.  `n` is the
total row count, `i` the absolute index of the first remaining row. -/
def upsertTraceGo (existing : List ExistingItem)
    (remote : Nat → IssuedCall → Except String Unit) (n : Nat) :
    Nat → List Row → List Event
  | _, [] => []
  | i, row :: rest =>
    let c := decideCall existing row
    match remote i c with
    | Except.ok _ =>
      Event.call i c ::
        ((if i < n - 1 then [Event.delay 200] else []) ++
          upsertTraceGo existing remote n (i + 1) rest)
    | Except.error _ => Event.call i c :: upsertTraceGo existing remote n (i + 1) rest

/-- The event trace of a whole `upsertItems` run. -/
def upsertTrace (existing : List ExistingItem) (rows : List Row)
    (remote : Nat → IssuedCall → Except String Unit) : List Event :=
  upsertTraceGo existing remote rows.length 0 rows

/-- The delays occurring in a trace strictly before the next call event. -/
def delaysUntilNextCall : List Event → List Nat
  | [] => []
  | Event.call _ _ :: _ => []
  | Event.delay d :: rest => d :: delaysUntilNextCall rest

/-- The delays occurring in a trace between the call event for row `i` and
the following call event (or the end of the trace). -/
def delaysAfterCall (i : Nat) : List Event → List Nat
  | [] => []
  | Event.call j _ :: rest => if j == i then delaysUntilNextCall rest else delaysAfterCall i rest
  | Event.delay _ :: rest => delaysAfterCall i rest

/-- One page request of `getAllItems`: `getItems(collectionId, { limit, offset })`,
embedded as an abstract item store mapping `(limit, offset)` to a page. -/
abbrev ItemStore : Type := Nat → Nat → List ExistingItem

/-- `WebflowClient.getAllItems` (lines 91–105): request pages of `limit = 100`
items at offsets `0, 100, 200, …`, accumulating them, and stop as soon as a
returned page is shorter than `limit`.  The `while (true)` loop is embedded
with explicit fuel; `none` means the fuel ran out before a short page. -/
def getAllItemsFuel (listItems : ItemStore) : Nat → Nat → Option (List ExistingItem)
  | 0, _ => none
  | fuel + 1, offset =>
    let items := listItems 100 offset
    if items.length < 100 then some items
    else
      match getAllItemsFuel listItems fuel (offset + 100) with
      | some rest => some (items ++ rest)
      | none => none

/-- The concatenation, in order, of `k` pages of 100 items starting at
`offset`: the pages at offsets `offset, offset + 100, …`. -/
def pagesConcat (listItems : ItemStore) (offset : Nat) : Nat → List ExistingItem
  | 0 => []
  | k + 1 => listItems 100 offset ++ pagesConcat listItems (offset + 100) k

/-- Dry-run classification predicate `d => d.id` (row counted as
matched-by-id). -/
def hasId (d : Row) : Bool :=
  truthy (List.lookup "id" d)

/-- Dry-run classification predicate `d => d.slug && !d.id` (row counted as
matched-by-slug only). -/
def hasSlugOnly (d : Row) : Bool :=
  truthy (List.lookup "slug" d) && !hasId d

/-- The remaining dry-run class: neither an `id` nor a slug-only match. -/
def isNew (d : Row) : Bool :=
  !hasId d && !hasSlugOnly d

/-- The dry-run result object built by `DataImporter.runImport`
(lines 155–170 of the importer component). -/
structure DryRunResult where
  total : Nat
  preview : List Row
  success : Nat
  errors : List ErrorEntry
  itemsWithId : Nat
  itemsWithSlug : Nat
  itemsNew : Nat
deriving DecidableEq, Repr

/-- The dry-run branch of `DataImporter.runImport`: counts the transformed
rows with a truthy `id`, those with a truthy `slug` and no truthy `id`, and
the remainder; previews the first 5 rows; performs no remote call (it is a
pure function of the transformed rows). -/
def dryRun (transformedData : List Row) : DryRunResult :=
  let itemsWithId := (transformedData.filter hasId).length
  let itemsWithSlug := (transformedData.filter hasSlugOnly).length
  let itemsNew := transformedData.length - itemsWithId - itemsWithSlug
  { total := transformedData.length
    preview := transformedData.take 5
    success := transformedData.length
    errors := []
    itemsWithId := itemsWithId
    itemsWithSlug := itemsWithSlug
    itemsNew := itemsNew }

/-- JavaScript object assignment `obj[k] = v` on an association list: update
the existing key in place, else append the new key at the end. -/
def setKey : Row → String → String → Row
  | [], k, v => [(k, v)]
  | (k0, v0) :: rest, k, v =>
    if k0 == k then (k0, v) :: rest else (k0, v0) :: setKey rest k v

/-- `DataImporter.transformData` (lines 126–140) on one parsed row: start
from an empty object; when update mode is on and `row.id` is truthy, copy it;
then for each `fieldMapping` entry `[source, target]` in insertion order,
when `target` is truthy and `row[source] !== undefined`, assign
`transformed[target] = row[source]`. -/
def transformOne (isUpdateMode : Bool) (fieldMapping : List (String × String))
    (row : Row) : Row :=
  let t0 : Row := []
  let t1 :=
    if isUpdateMode && truthy (List.lookup "id" row) then
      setKey t0 "id" ((List.lookup "id" row).getD "")
    else t0
  fieldMapping.foldl
    (fun acc st =>
      if st.2 != "" && (List.lookup st.1 row).isSome then
        setKey acc st.2 ((List.lookup st.1 row).getD "")
      else acc)
    t1

/-- `DataImporter.transformData`: map `transformOne` over the parsed rows. -/
def transformData (isUpdateMode : Bool) (fieldMapping : List (String × String))
    (parsedData : List Row) : List Row :=
  parsedData.map (transformOne isUpdateMode fieldMapping)

/-! Basic lemmas about the embedded primitives. -/

theorem memStr_iff (x : String) (l : List String) : memStr x l = true ↔ x ∈ l := by
  induction l with
  | nil => simp [memStr]
  | cons y rest ih => simp [memStr, Bool.or_eq_true, beq_iff_eq, ih, List.mem_cons]

theorem lookup_eraseId (k : String) (row : Row) :
    List.lookup k (eraseId row) = if k = "id" then none else List.lookup k row := by
  induction row with
  | nil => simp [eraseId]
  | cons kv rest ih =>
    obtain ⟨k0, v0⟩ := kv
    by_cases h0 : k0 = "id"
    · subst h0
      have herase : eraseId (("id", v0) :: rest) = eraseId rest := by
        simp [eraseId, List.filter_cons]
      rw [herase, ih]
      by_cases hk : k = "id"
      · simp [hk]
      · have hb : (k == "id") = false := by simp [hk]
        simp [hk, List.lookup_cons, hb]
    · have herase : eraseId ((k0, v0) :: rest) = (k0, v0) :: eraseId rest := by
        simp [eraseId, List.filter_cons, bne_iff_ne, h0]
      rw [herase]
      by_cases hk : k = k0
      · subst hk
        have hne : ¬ k = "id" := h0
        simp [List.lookup_cons, hne]
      · have hb : (k == k0) = false := by simp [hk]
        simp [List.lookup_cons, hb, ih]

theorem mem_eraseId (kv : String × String) (row : Row) :
    kv ∈ eraseId row ↔ kv ∈ row ∧ kv.1 ≠ "id" := by
  simp [eraseId, List.mem_filter, bne_iff_ne]

theorem slugMatches_iff (it : ExistingItem) (s : String) :
    slugMatches it s = true ↔ it.slug = some s ∧ s ≠ "" := by
  cases h : it.slug with
  | none => simp [slugMatches, h]
  | some sl =>
    simp only [slugMatches, h, Bool.and_eq_true, bne_iff_ne, beq_iff_eq, Option.some.injEq]
    constructor
    · rintro ⟨h1, rfl⟩
      exact ⟨rfl, h1⟩
    · rintro ⟨rfl, h2⟩
      exact ⟨h2, rfl⟩

theorem foldl_slugStep_no_match (s : String) (l : List ExistingItem) (acc : Option String)
    (h : ∀ e ∈ l, slugMatches e s = false) :
    l.foldl (slugStep s) acc = acc := by
  induction l generalizing acc with
  | nil => rfl
  | cons a rest ih =>
    have ha := h a (by simp)
    rw [List.foldl_cons]
    have hstep : slugStep s acc a = acc := by simp [slugStep, ha]
    rw [hstep]
    exact ih acc (fun e he => h e (by simp [he]))

theorem foldl_slugStep_stable (s t : String) (l : List ExistingItem)
    (h : ∀ e ∈ l, slugMatches e s = true → e.id = t) :
    l.foldl (slugStep s) (some t) = some t := by
  induction l with
  | nil => rfl
  | cons a rest ih =>
    rw [List.foldl_cons]
    have hstep : slugStep s (some t) a = some t := by
      by_cases hm : slugMatches a s
      · simp [slugStep, hm, h a (by simp) hm]
      · simp [slugStep, hm]
    rw [hstep]
    exact ih (fun e he hme => h e (by simp [he]) hme)

theorem slugToId_of_unique (existing : List ExistingItem) (e : ExistingItem) (s : String)
    (he : e ∈ existing) (hm : slugMatches e s = true)
    (huniq : ∀ e' ∈ existing, slugMatches e' s = true → e'.id = e.id) :
    slugToId existing s = some e.id := by
  obtain ⟨l1, l2, rfl⟩ := List.append_of_mem he
  unfold slugToId
  rw [List.foldl_append, List.foldl_cons]
  have hstep : ∀ acc, slugStep s acc e = some e.id := by
    intro acc
    simp [slugStep, hm]
  rw [hstep]
  exact foldl_slugStep_stable s e.id l2
    (fun x hx hmx => huniq x (by simp [hx]) hmx)

theorem foldl_slugStep_eq_some (s t : String) :
    ∀ (l : List ExistingItem) (acc : Option String),
      l.foldl (slugStep s) acc = some t →
      (∃ e ∈ l, slugMatches e s = true ∧ e.id = t) ∨ acc = some t := by
  intro l
  induction l with
  | nil => intro acc h; exact Or.inr h
  | cons a rest ih =>
    intro acc h
    rw [List.foldl_cons] at h
    rcases ih _ h with hex | hacc
    · obtain ⟨e, he, hme, hide⟩ := hex
      exact Or.inl ⟨e, by simp [he], hme, hide⟩
    · by_cases hm : slugMatches a s
      · refine Or.inl ⟨a, by simp, hm, ?_⟩
        simpa [slugStep, hm] using hacc
      · refine Or.inr ?_
        simpa [slugStep, hm] using hacc

theorem slugToId_mem (existing : List ExistingItem) (s t : String)
    (h : slugToId existing s = some t) :
    ∃ e ∈ existing, slugMatches e s = true ∧ e.id = t := by
  rcases foldl_slugStep_eq_some s t existing none h with hex | hacc
  · exact hex
  · exact absurd hacc (by simp)

theorem byIdOf_eq_some (existing : List ExistingItem) (row : Row) (x : String)
    (hx : List.lookup "id" row = some x) (hne : x ≠ "") (hmem : x ∈ ids existing) :
    byIdOf existing row = some x := by
  have hm : memStr x (ids existing) = true := (memStr_iff x (ids existing)).2 hmem
  simp [byIdOf, hx, hm, hne, bne_iff_ne]

theorem byIdOf_eq_none (existing : List ExistingItem) (row : Row)
    (h : ¬ ∃ x, List.lookup "id" row = some x ∧ x ∈ ids existing) :
    byIdOf existing row = none := by
  unfold byIdOf
  cases hl : List.lookup "id" row with
  | none => rfl
  | some x =>
    have hnm : x ∉ ids existing := fun hmem => h ⟨x, hl, hmem⟩
    have hm : memStr x (ids existing) = false := by
      cases hb : memStr x (ids existing)
      · rfl
      · exact absurd ((memStr_iff x (ids existing)).1 hb) hnm
    simp [hm]

/-- C1 — the upsert reconciler's three-way decision, in priority order: a row
whose `id` is an existing identifier is updated against that identifier
(never created); otherwise a row whose `slug` matches an existing item's slug
is updated against that item's identifier; otherwise a create is issued.
Existing identifiers are assumed non-empty (they are opaque identifiers of
real CMS items), and for the slug case the matched slug is assumed to pick
out a unique existing item (the spec assumes slug uniqueness). -/
theorem upsert_decision_priority (existing : List ExistingItem) (row : Row)
    (hwf : ∀ e ∈ existing, e.id ≠ "") :
    (∀ x, List.lookup "id" row = some x → x ∈ ids existing →
        decideCall existing row = IssuedCall.update x (eraseId row)) ∧
    ((¬ ∃ x, List.lookup "id" row = some x ∧ x ∈ ids existing) →
      ∀ e s, e ∈ existing → e.slug = some s → s ≠ "" →
        List.lookup "slug" row = some s →
        (∀ e' ∈ existing, e'.slug = some s → e' = e) →
        decideCall existing row = IssuedCall.update e.id (eraseId row)) ∧
    ((¬ ∃ x, List.lookup "id" row = some x ∧ x ∈ ids existing) →
      (¬ ∃ s, List.lookup "slug" row = some s ∧ s ≠ "" ∧
          ∃ e ∈ existing, e.slug = some s) →
      decideCall existing row = IssuedCall.create (eraseId row)) := by
  refine ⟨?_, ?_, ?_⟩
  · intro x hx hmem
    have hne : x ≠ "" := by
      obtain ⟨e, he, hex⟩ := List.mem_map.1 hmem
      exact hex ▸ hwf e he
    simp [decideCall, byIdOf_eq_some existing row x hx hne hmem]
  · intro hid e s he hslug hsne hrow huniq
    have hbid := byIdOf_eq_none existing row hid
    have hm : slugMatches e s = true := (slugMatches_iff e s).2 ⟨hslug, hsne⟩
    have hmap : slugToId existing s = some e.id :=
      slugToId_of_unique existing e s he hm
        (fun e' he' hme' =>
          congrArg ExistingItem.id
            (huniq e' he' ((slugMatches_iff e' s).1 hme').1))
    have hfd : List.lookup "slug" (eraseId row) = some s := by
      rw [lookup_eraseId]
      simpa using hrow
    have hidne : e.id ≠ "" := hwf e he
    simp [decideCall, hbid, bySlugOf, hfd, hsne, hmap, hidne, bne_iff_ne]
  · intro hid hslug
    have hbid := byIdOf_eq_none existing row hid
    have hbslug : bySlugOf existing (eraseId row) = none := by
      unfold bySlugOf
      cases hs : List.lookup "slug" (eraseId row) with
      | none => rfl
      | some s =>
        have hrow : List.lookup "slug" row = some s := by
          rw [lookup_eraseId] at hs
          simpa using hs
        by_cases hsne : s = ""
        · simp [hsne]
        · cases hmap : slugToId existing s with
          | none => simp [hsne, bne_iff_ne, hmap]
          | some t =>
            obtain ⟨e, he, hme, -⟩ := slugToId_mem existing s t hmap
            exact absurd ⟨s, hrow, hsne, e, he, ((slugMatches_iff e s).1 hme).1⟩ hslug
    simp [decideCall, hbid, hbslug]

/-- Witness for C1: a concrete row whose `id` matches the only existing item
is updated against that identifier. -/
theorem upsert_decision_priority_witness :
    decideCall [⟨"a1", some "s1"⟩] [("id", "a1"), ("title", "T")] =
      IssuedCall.update "a1" (eraseId [("id", "a1"), ("title", "T")]) :=
  (upsert_decision_priority [⟨"a1", some "s1"⟩] [("id", "a1"), ("title", "T")]
    (by decide)).1 "a1" (by decide) (by decide)

/-! Lemmas about the upsert and create row loops. -/

theorem upsertLoop_length (existing : List ExistingItem)
    (remote : Nat → IssuedCall → Except String Unit) :
    ∀ (rows : List Row) (k : Nat),
      (upsertLoop existing remote k rows).1.length +
        (upsertLoop existing remote k rows).2.length = rows.length := by
  intro rows
  induction rows with
  | nil => intro k; rfl
  | cons row rest ih =>
    intro k
    have ih' := ih (k + 1)
    cases hr : remote k (decideCall existing row) with
    | ok u => simp [upsertLoop, hr]; omega
    | error m => simp [upsertLoop, hr]; omega

theorem upsertLoop_count (existing : List ExistingItem)
    (remote : Nat → IssuedCall → Except String Unit) :
    ∀ (rows : List Row) (k j : Nat),
      List.countP (fun e => e.index == j) (upsertLoop existing remote k rows).1 +
        List.countP (fun e => e.index == j) (upsertLoop existing remote k rows).2 =
        if k ≤ j ∧ j < k + rows.length then 1 else 0 := by
  intro rows
  induction rows with
  | nil =>
    intro k j
    simp only [upsertLoop, List.countP_nil, List.length_nil]
    split_ifs with h
    · omega
    · rfl
  | cons row rest ih =>
    intro k j
    have ih' := ih (k + 1) j
    cases hr : remote k (decideCall existing row) with
    | ok u =>
      simp only [upsertLoop, hr, List.countP_cons, List.length_cons]
      simp only [beq_iff_eq]
      split_ifs at * <;> omega
    | error m =>
      simp only [upsertLoop, hr, List.countP_cons, List.length_cons]
      simp only [beq_iff_eq]
      split_ifs at * <;> omega

theorem upsertLoop_action (existing : List ExistingItem)
    (remote : Nat → IssuedCall → Except String Unit) :
    ∀ (rows : List Row) (k : Nat) (e : SuccessEntry),
      e ∈ (upsertLoop existing remote k rows).1 →
      e.action = "updated" ∨ e.action = "created" := by
  intro rows
  induction rows with
  | nil => intro k e he; simp [upsertLoop] at he
  | cons row rest ih =>
    intro k e he
    cases hr : remote k (decideCall existing row) with
    | ok u =>
      simp only [upsertLoop, hr] at he
      rcases List.mem_cons.1 he with hhead | htail
      · subst hhead
        cases decideCall existing row with
        | update t p => exact Or.inl rfl
        | create p => exact Or.inr rfl
      · exact ih (k + 1) e htail
    | error m =>
      simp only [upsertLoop, hr] at he
      exact ih (k + 1) e he

theorem filter_action_split (l : List SuccessEntry)
    (h : ∀ e ∈ l, e.action = "updated" ∨ e.action = "created") :
    (l.filter (fun r => r.action == "updated")).length +
      (l.filter (fun r => r.action == "created")).length = l.length := by
  induction l with
  | nil => rfl
  | cons a rest ih =>
    have ha := h a (by simp)
    have ih' := ih (fun e he => h e (by simp [he]))
    rcases ha with ha | ha <;>
      simp [List.filter_cons, ha] <;> omega

theorem upsertLoop_bounds_sorted (existing : List ExistingItem)
    (remote : Nat → IssuedCall → Except String Unit) :
    ∀ (rows : List Row) (k : Nat),
      (∀ e ∈ (upsertLoop existing remote k rows).1, k ≤ e.index) ∧
      (∀ e ∈ (upsertLoop existing remote k rows).2, k ≤ e.index) ∧
      List.Pairwise (fun a b => a < b)
        ((upsertLoop existing remote k rows).1.map (fun e => e.index)) ∧
      List.Pairwise (fun a b => a < b)
        ((upsertLoop existing remote k rows).2.map (fun e => e.index)) := by
  intro rows
  induction rows with
  | nil => intro k; simp [upsertLoop]
  | cons row rest ih =>
    intro k
    obtain ⟨ihr, ihe, ihpr, ihpe⟩ := ih (k + 1)
    cases hr : remote k (decideCall existing row) with
    | ok u =>
      simp only [upsertLoop, hr]
      refine ⟨?_, ?_, ?_, ?_⟩
      · intro e he
        rcases List.mem_cons.1 he with hhead | htail
        · subst hhead; exact Nat.le_refl k
        · exact Nat.le_of_succ_le (ihr e htail)
      · intro e he
        exact Nat.le_of_succ_le (ihe e he)
      · rw [List.map_cons, List.pairwise_cons]
        refine ⟨?_, ihpr⟩
        intro b hb
        obtain ⟨e, he, hbe⟩ := List.mem_map.1 hb
        have h1 := ihr e he
        have h2 : e.index = b := hbe
        show k < b
        omega
      · exact ihpe
    | error m =>
      simp only [upsertLoop, hr]
      refine ⟨?_, ?_, ?_, ?_⟩
      · intro e he
        exact Nat.le_of_succ_le (ihr e he)
      · intro e he
        rcases List.mem_cons.1 he with hhead | htail
        · subst hhead; exact Nat.le_refl k
        · exact Nat.le_of_succ_le (ihe e htail)
      · exact ihpr
      · rw [List.map_cons, List.pairwise_cons]
        refine ⟨?_, ihpe⟩
        intro b hb
        obtain ⟨e, he, hbe⟩ := List.mem_map.1 hb
        have h1 := ihe e he
        have h2 : e.index = b := hbe
        show k < b
        omega

theorem upsertLoop_err_mem (existing : List ExistingItem)
    (remote : Nat → IssuedCall → Except String Unit) :
    ∀ (rows : List Row) (k i : Nat) (hi : i < rows.length) (m : String),
      remote (k + i) (decideCall existing (rows.get ⟨i, hi⟩)) = Except.error m →
      ErrorEntry.mk (k + i) m (rows.get ⟨i, hi⟩) ∈ (upsertLoop existing remote k rows).2 := by
  intro rows
  induction rows with
  | nil => intro k i hi; exact absurd hi (by simp)
  | cons row rest ih =>
    intro k i hi m hfail
    cases i with
    | zero =>
      have hget : (row :: rest).get ⟨0, hi⟩ = row := rfl
      rw [hget] at hfail ⊢
      rw [Nat.add_zero] at hfail ⊢
      simp only [upsertLoop, hfail]
      exact List.mem_cons_self _ _
    | succ i' =>
      have hi' : i' < rest.length := by
        simp only [List.length_cons] at hi
        omega
      have hget : (row :: rest).get ⟨i' + 1, hi⟩ = rest.get ⟨i', hi'⟩ :=
        List.get_cons_succ
      rw [hget] at hfail ⊢
      have hadd : k + (i' + 1) = (k + 1) + i' := by omega
      rw [hadd] at hfail ⊢
      have hmem := ih (k + 1) i' hi' m hfail
      cases hr : remote k (decideCall existing row) with
      | ok u => simpa [upsertLoop, hr] using hmem
      | error m0 =>
        simp only [upsertLoop, hr]
        exact List.mem_cons_of_mem _ hmem

theorem createLoop_bounds_sorted (remote : Nat → Row → Except String Unit) :
    ∀ (rows : List Row) (k : Nat),
      (∀ e ∈ (createLoop remote k rows).1, k ≤ e.index) ∧
      (∀ e ∈ (createLoop remote k rows).2, k ≤ e.index) ∧
      List.Pairwise (fun a b => a < b)
        ((createLoop remote k rows).1.map (fun e => e.index)) ∧
      List.Pairwise (fun a b => a < b)
        ((createLoop remote k rows).2.map (fun e => e.index)) := by
  intro rows
  induction rows with
  | nil => intro k; simp [createLoop]
  | cons row rest ih =>
    intro k
    obtain ⟨ihr, ihe, ihpr, ihpe⟩ := ih (k + 1)
    cases hr : remote k row with
    | ok u =>
      simp only [createLoop, hr]
      refine ⟨?_, ?_, ?_, ?_⟩
      · intro e he
        rcases List.mem_cons.1 he with hhead | htail
        · subst hhead; exact Nat.le_refl k
        · exact Nat.le_of_succ_le (ihr e htail)
      · intro e he
        exact Nat.le_of_succ_le (ihe e he)
      · rw [List.map_cons, List.pairwise_cons]
        refine ⟨?_, ihpr⟩
        intro b hb
        obtain ⟨e, he, hbe⟩ := List.mem_map.1 hb
        have h1 := ihr e he
        have h2 : e.index = b := hbe
        show k < b
        omega
      · exact ihpe
    | error m =>
      simp only [createLoop, hr]
      refine ⟨?_, ?_, ?_, ?_⟩
      · intro e he
        exact Nat.le_of_succ_le (ihr e he)
      · intro e he
        rcases List.mem_cons.1 he with hhead | htail
        · subst hhead; exact Nat.le_refl k
        · exact Nat.le_of_succ_le (ihe e htail)
      · exact ihpr
      · rw [List.map_cons, List.pairwise_cons]
        refine ⟨?_, ihpe⟩
        intro b hb
        obtain ⟨e, he, hbe⟩ := List.mem_map.1 hb
        have h1 := ihe e he
        have h2 : e.index = b := hbe
        show k < b
        omega

/-- C2 — every row index in `[0, n)` appears exactly once across the success
list and the error list of `upsertItems`, and
`created + updated + |errors| = total = n`. -/
theorem upsert_partition_counts (existing : List ExistingItem) (rows : List Row)
    (remote : Nat → IssuedCall → Except String Unit) :
    (upsertItems existing rows remote).total = rows.length ∧
    (upsertItems existing rows remote).created + (upsertItems existing rows remote).updated +
      (upsertItems existing rows remote).errors.length = rows.length ∧
    ∀ j : Nat,
      List.countP (fun e => e.index == j) (upsertItems existing rows remote).results +
        List.countP (fun e => e.index == j) (upsertItems existing rows remote).errors =
        if j < rows.length then 1 else 0 := by
  refine ⟨rfl, ?_, ?_⟩
  · have hsplit := filter_action_split (upsertLoop existing remote 0 rows).1
      (fun e he => upsertLoop_action existing remote rows 0 e he)
    have hlen := upsertLoop_length existing remote rows 0
    simp only [upsertItems]
    omega
  · intro j
    have hc := upsertLoop_count existing remote rows 0 j
    simp only [Nat.zero_le, true_and, Nat.zero_add] at hc
    exact hc

/-- C3 — a row whose remote call fails appears in the error list with its
original input index and the thrown message, and every later row is still
processed (it shows up in the success or the error list). -/
theorem upsert_failure_recorded (existing : List ExistingItem) (rows : List Row)
    (remote : Nat → IssuedCall → Except String Unit) (i : Nat) (m : String)
    (hi : i < rows.length)
    (hfail : remote i (decideCall existing (rows.get ⟨i, hi⟩)) = Except.error m) :
    ErrorEntry.mk i m (rows.get ⟨i, hi⟩) ∈ (upsertItems existing rows remote).errors ∧
    ∀ j, i < j → j < rows.length →
      (∃ e ∈ (upsertItems existing rows remote).results, e.index = j) ∨
      (∃ e ∈ (upsertItems existing rows remote).errors, e.index = j) := by
  constructor
  · have h := upsertLoop_err_mem existing remote rows 0 i hi m
      (by rw [Nat.zero_add]; exact hfail)
    rw [Nat.zero_add] at h
    exact h
  · intro j hij hj
    have hc := upsertLoop_count existing remote rows 0 j
    simp only [Nat.zero_le, true_and, Nat.zero_add, if_pos hj] at hc
    by_cases hres :
        0 < List.countP (fun e => e.index == j) (upsertLoop existing remote 0 rows).1
    · obtain ⟨e, he, hpe⟩ := List.countP_pos_iff.1 hres
      exact Or.inl ⟨e, he, beq_iff_eq.1 hpe⟩
    · have herr :
          0 < List.countP (fun e => e.index == j) (upsertLoop existing remote 0 rows).2 := by
        omega
      obtain ⟨e, he, hpe⟩ := List.countP_pos_iff.1 herr
      exact Or.inr ⟨e, he, beq_iff_eq.1 hpe⟩

/-- Witness for C3: with a remote oracle that always throws `"boom"`, the
single row's failure is recorded at index 0. -/
theorem upsert_failure_recorded_witness :
    ErrorEntry.mk 0 "boom" [("title", "A")] ∈
      (upsertItems [] [[("title", "A")]] (fun _ _ => Except.error "boom")).errors ∧
    ∀ j, 0 < j → j < ([[("title", "A")]] : List Row).length →
      (∃ e ∈ (upsertItems [] [[("title", "A")]] (fun _ _ => Except.error "boom")).results,
        e.index = j) ∨
      (∃ e ∈ (upsertItems [] [[("title", "A")]] (fun _ _ => Except.error "boom")).errors,
        e.index = j) :=
  upsert_failure_recorded [] [[("title", "A")]] (fun _ _ => Except.error "boom")
    0 "boom" (by decide) rfl

/-- C9 — the success list and the error list of both `upsertItems` and
`createItems` are ordered by strictly increasing row index. -/
theorem result_lists_index_sorted (existing : List ExistingItem) (rows : List Row)
    (remote : Nat → IssuedCall → Except String Unit)
    (cremote : Nat → Row → Except String Unit) :
    List.Pairwise (fun a b => a < b)
      ((upsertItems existing rows remote).results.map (fun e => e.index)) ∧
    List.Pairwise (fun a b => a < b)
      ((upsertItems existing rows remote).errors.map (fun e => e.index)) ∧
    List.Pairwise (fun a b => a < b)
      ((createItems rows cremote).results.map (fun e => e.index)) ∧
    List.Pairwise (fun a b => a < b)
      ((createItems rows cremote).errors.map (fun e => e.index)) := by
  obtain ⟨-, -, hu1, hu2⟩ := upsertLoop_bounds_sorted existing remote rows 0
  obtain ⟨-, -, hc1, hc2⟩ := createLoop_bounds_sorted cremote rows 0
  exact ⟨hu1, hu2, hc1, hc2⟩

/-- C4 — the worked example of the spec: rows
`[{id:"a1",title:"X"}, {slug:"y",title:"Y"}, {title:"Z"}]` against existing
items `a1` (no slug) and `other` (slug `"y"`), with every remote call
succeeding, update `a1`, update `other`, create, and return
`created = 1`, `updated = 2` and no errors. -/
theorem upsert_example_run :
    ([[("id", "a1"), ("title", "X")], [("slug", "y"), ("title", "Y")], [("title", "Z")]] :
        List Row).map
      (decideCall [⟨"a1", none⟩, ⟨"other", some "y"⟩]) =
      [IssuedCall.update "a1" [("title", "X")],
       IssuedCall.update "other" [("slug", "y"), ("title", "Y")],
       IssuedCall.create [("title", "Z")]] ∧
    (upsertItems [⟨"a1", none⟩, ⟨"other", some "y"⟩]
      [[("id", "a1"), ("title", "X")], [("slug", "y"), ("title", "Y")], [("title", "Z")]]
      (fun _ _ => Except.ok ())).created = 1 ∧
    (upsertItems [⟨"a1", none⟩, ⟨"other", some "y"⟩]
      [[("id", "a1"), ("title", "X")], [("slug", "y"), ("title", "Y")], [("title", "Z")]]
      (fun _ _ => Except.ok ())).updated = 2 ∧
    (upsertItems [⟨"a1", none⟩, ⟨"other", some "y"⟩]
      [[("id", "a1"), ("title", "X")], [("slug", "y"), ("title", "Y")], [("title", "Z")]]
      (fun _ _ => Except.ok ())).errors = [] ∧
    (upsertItems [⟨"a1", none⟩, ⟨"other", some "y"⟩]
      [[("id", "a1"), ("title", "X")], [("slug", "y"), ("title", "Y")], [("title", "Z")]]
      (fun _ _ => Except.ok ())).total = 3 := by
  refine ⟨?_, ?_, ?_, ?_, ?_⟩ <;> decide

/-- C5 — the field payload of every issued call is the row with its `id` key
removed: it never contains an `id` key, it gives every key other than `id`
the row's own value, and its entries are exactly the row's non-`id` entries. -/
theorem upsert_payload_strips_id (existing : List ExistingItem) (row : Row) :
    (decideCall existing row).payload = eraseId row ∧
    List.lookup "id" (decideCall existing row).payload = none ∧
    (∀ k : String, List.lookup k (decideCall existing row).payload =
        if k = "id" then none else List.lookup k row) ∧
    (∀ kv : String × String,
        kv ∈ (decideCall existing row).payload ↔ kv ∈ row ∧ kv.1 ≠ "id") := by
  have hp : (decideCall existing row).payload = eraseId row := by
    simp only [decideCall]
    cases hb : byIdOf existing row with
    | some t => simp [hb, IssuedCall.payload]
    | none =>
      cases hs : bySlugOf existing (eraseId row) with
      | some t => simp [hb, hs, IssuedCall.payload]
      | none => simp [hb, hs, IssuedCall.payload]
  refine ⟨hp, ?_, ?_, ?_⟩
  · rw [hp, lookup_eraseId]
    simp
  · intro k
    rw [hp, lookup_eraseId]
  · intro kv
    rw [hp]
    exact mem_eraseId kv row

/-! Dry-run classification lemmas. -/

theorem class_partition (d : Row) :
    (if hasId d then 1 else 0) + (if hasSlugOnly d then 1 else 0) +
      (if isNew d then 1 else 0) = 1 := by
  by_cases h1 : hasId d
  · simp [hasSlugOnly, isNew, h1]
  · by_cases h2 : truthy (List.lookup "slug" d)
    · simp [hasSlugOnly, isNew, h1, h2]
    · simp [hasSlugOnly, isNew, h1, h2]

theorem filter_class_length (l : List Row) :
    (l.filter hasId).length + (l.filter hasSlugOnly).length +
      (l.filter isNew).length = l.length := by
  induction l with
  | nil => rfl
  | cons d rest ih =>
    have hd := class_partition d
    simp only [List.filter_cons]
    split_ifs at hd ⊢ <;> simp only [List.length_cons] <;> omega

/-- C6 — the dry-run preview is a pure function of the transformed rows: it
classifies every row into exactly one of the three classes (truthy `id`;
truthy `slug` without truthy `id`; neither), its three counters sum to the
total row count, `itemsNew` counts exactly the "neither" class, and the
preview is the first five rows.  No remote oracle appears: `dryRun` consumes
nothing but the rows. -/
theorem dry_run_classification (rows : List Row) :
    (dryRun rows).total = rows.length ∧
    (dryRun rows).itemsWithId + (dryRun rows).itemsWithSlug + (dryRun rows).itemsNew =
      rows.length ∧
    (dryRun rows).itemsNew = (rows.filter isNew).length ∧
    (∀ d : Row,
      (if hasId d then 1 else 0) + (if hasSlugOnly d then 1 else 0) +
        (if isNew d then 1 else 0) = 1) ∧
    (dryRun rows).preview = rows.take 5 ∧
    (dryRun rows).errors = [] ∧
    (dryRun rows).success = rows.length := by
  have hf := filter_class_length rows
  refine ⟨rfl, ?_, ?_, class_partition, rfl, rfl, rfl⟩
  · simp only [dryRun]
    omega
  · simp only [dryRun]
    omega

/-! Pagination of the existing item set. -/

theorem getAllItemsFuel_spec (listItems : ItemStore) :
    ∀ (k fuel offset : Nat), k < fuel →
      (∀ j, j < k → ¬ (listItems 100 (offset + 100 * j)).length < 100) →
      (listItems 100 (offset + 100 * k)).length < 100 →
      getAllItemsFuel listItems fuel offset =
        some (pagesConcat listItems offset (k + 1)) := by
  intro k
  induction k with
  | zero =>
    intro fuel offset hfuel hfull hshort
    cases fuel with
    | zero => omega
    | succ f =>
      simp only [getAllItemsFuel]
      rw [if_pos (by simpa using hshort)]
      simp [pagesConcat]
  | succ k' ih =>
    intro fuel offset hfuel hfull hshort
    cases fuel with
    | zero => omega
    | succ f =>
      have hnotshort : ¬ (listItems 100 offset).length < 100 := by
        have := hfull 0 (by omega)
        simpa using this
      simp only [getAllItemsFuel]
      rw [if_neg hnotshort]
      have hrec := ih f (offset + 100) (by omega)
        (fun j hj => by
          have hj1 := hfull (j + 1) (by omega)
          have heq : offset + 100 * (j + 1) = offset + 100 + 100 * j := by ring
          rwa [heq] at hj1)
        (by
          have heq : offset + 100 * (k' + 1) = offset + 100 + 100 * k' := by ring
          rwa [heq] at hshort)
      rw [hrec]
      simp [pagesConcat]

/-- C7 — `getAllItems` requests pages of a fixed size of 100 at the
increasing offsets `0, 100, …, 100·k`, stops exactly at the first page
shorter than 100, and returns the concatenation of all returned pages in
order; any fuel above the index of the first short page suffices, so the
loop terminates whenever the store eventually returns a short page. -/
theorem getAllItems_pagination (listItems : ItemStore) (k fuel : Nat)
    (hfuel : k < fuel)
    (hfull : ∀ j, j < k → ¬ (listItems 100 (100 * j)).length < 100)
    (hshort : (listItems 100 (100 * k)).length < 100) :
    getAllItemsFuel listItems fuel 0 = some (pagesConcat listItems 0 (k + 1)) := by
  have h := getAllItemsFuel_spec listItems k fuel 0 hfuel
    (fun j hj => by simpa using hfull j hj) (by simpa using hshort)
  exact h

/-- Witness for C7: a store whose very first page is empty terminates with
fuel 1 and returns just that page. -/
theorem getAllItems_pagination_witness :
    getAllItemsFuel (fun _ _ => []) 1 0 = some (pagesConcat (fun _ _ => []) 0 1) :=
  getAllItems_pagination (fun _ _ => []) 0 1 (by omega)
    (fun j hj => absurd hj (by omega)) (by simp)

/-! Rate-limit delay structure of the upsert row loop. -/

theorem upsertTraceGo_head (existing : List ExistingItem)
    (remote : Nat → IssuedCall → Except String Unit) (n : Nat)
    (l : List Row) (k : Nat) :
    upsertTraceGo existing remote n k l = [] ∨
    ∃ c tail, upsertTraceGo existing remote n k l = Event.call k c :: tail := by
  cases l with
  | nil => exact Or.inl rfl
  | cons row rest =>
    cases hr : remote k (decideCall existing row) with
    | ok u =>
      refine Or.inr ⟨decideCall existing row,
        (if k < n - 1 then [Event.delay 200] else []) ++
          upsertTraceGo existing remote n (k + 1) rest, ?_⟩
      simp [upsertTraceGo, hr]
    | error m =>
      refine Or.inr ⟨decideCall existing row,
        upsertTraceGo existing remote n (k + 1) rest, ?_⟩
      simp [upsertTraceGo, hr]

theorem delaysUntil_go (existing : List ExistingItem)
    (remote : Nat → IssuedCall → Except String Unit) (n : Nat)
    (l : List Row) (k : Nat) :
    delaysUntilNextCall (upsertTraceGo existing remote n k l) = [] := by
  rcases upsertTraceGo_head existing remote n l k with h | ⟨c, tail, h⟩ <;>
    rw [h] <;> rfl

theorem delaysAfterCall_go (existing : List ExistingItem)
    (remote : Nat → IssuedCall → Except String Unit) :
    ∀ (l : List Row) (k n j : Nat) (hj : j < l.length),
      n = k + l.length → (k + j) + 1 < n →
      delaysAfterCall (k + j) (upsertTraceGo existing remote n k l) =
        match remote (k + j) (decideCall existing (l.get ⟨j, hj⟩)) with
        | Except.ok _ => [200]
        | Except.error _ => [] := by
  intro l
  induction l with
  | nil => intro k n j hj hn hi; exact absurd hj (by simp)
  | cons row rest ih =>
    intro k n j hj hn hi
    simp only [List.length_cons] at hn
    cases j with
    | zero =>
      have hget : (row :: rest).get ⟨0, hj⟩ = row := rfl
      rw [hget, Nat.add_zero] at *
      cases hr : remote k (decideCall existing row) with
      | ok u =>
        simp only [upsertTraceGo, hr]
        have hcond : k < n - 1 := by omega
        rw [if_pos hcond]
        simp [delaysAfterCall, delaysUntilNextCall, delaysUntil_go]
      | error m =>
        simp only [upsertTraceGo, hr]
        simp [delaysAfterCall, delaysUntil_go]
    | succ j' =>
      have hj' : j' < rest.length := by
        simp only [List.length_cons] at hj
        omega
      have hget : (row :: rest).get ⟨j' + 1, hj⟩ = rest.get ⟨j', hj'⟩ :=
        List.get_cons_succ
      have harith : k + (j' + 1) = (k + 1) + j' := by omega
      rw [hget, harith]
      have hrec := ih (k + 1) n j' hj' (by omega) (by omega)
      have hne : (k == (k + 1) + j') = false := by
        simp only [beq_eq_false_iff_ne]
        omega
      cases hr : remote k (decideCall existing row) with
      | ok u =>
        simp only [upsertTraceGo, hr]
        by_cases hcond : k < n - 1
        · rw [if_pos hcond]
          simpa [delaysAfterCall, hne] using hrec
        · rw [if_neg hcond]
          simpa [delaysAfterCall, hne] using hrec
      | error m =>
        simp only [upsertTraceGo, hr]
        simpa [delaysAfterCall, hne] using hrec

theorem upsertTraceGo_delay_mem (existing : List ExistingItem)
    (remote : Nat → IssuedCall → Except String Unit) (n : Nat) :
    ∀ (l : List Row) (k d : Nat),
      Event.delay d ∈ upsertTraceGo existing remote n k l → d = 200 := by
  intro l
  induction l with
  | nil => intro k d h; simp [upsertTraceGo] at h
  | cons row rest ih =>
    intro k d h
    cases hr : remote k (decideCall existing row) with
    | ok u =>
      simp only [upsertTraceGo, hr, List.mem_cons, List.mem_append] at h
      rcases h with hc | h2
      · exact absurd hc (by simp)
      · rcases h2 with h3 | h4
        · by_cases hcond : k < n - 1
          · rw [if_pos hcond] at h3
            simpa using h3
          · rw [if_neg hcond] at h3
            simp at h3
        · exact ih (k + 1) d h4
    | error m =>
      simp only [upsertTraceGo, hr, List.mem_cons] at h
      rcases h with hc | h2
      · exact absurd hc (by simp)
      · exact ih (k + 1) d h2

/-- C8 counterexample — with two rows and a remote oracle that always throws,
two consecutive remote calls are issued with no delay between them: after the
failing call for row 0, the call for row 1 follows immediately (the `catch`
path skips the `setTimeout`).  The claim that a fixed delay is waited between
every pair of consecutive remote calls is therefore false on this input. -/
theorem upsert_delay_counterexample :
    upsertTrace [] [[("a", "1")], [("b", "2")]] (fun _ _ => Except.error "x") =
      [Event.call 0 (IssuedCall.create [("a", "1")]),
       Event.call 1 (IssuedCall.create [("b", "2")])] ∧
    delaysAfterCall 0
      (upsertTrace [] [[("a", "1")], [("b", "2")]] (fun _ _ => Except.error "x")) = [] := by
  refine ⟨?_, ?_⟩ <;> decide

/-- C8 amended — between the remote call for row `i` and the next remote
call, a delay is waited exactly when row `i`'s call succeeded, and that delay
is always the fixed constant 200 ms (never adaptive); after a failed call the
next call follows with no delay.  Every delay event in the whole trace is
200 ms. -/
theorem upsert_delay_after_success (existing : List ExistingItem) (rows : List Row)
    (remote : Nat → IssuedCall → Except String Unit) (i : Nat)
    (hi : i + 1 < rows.length) :
    delaysAfterCall i (upsertTrace existing rows remote) =
      (match remote i (decideCall existing (rows.get ⟨i, Nat.lt_of_succ_lt hi⟩)) with
        | Except.ok _ => [200]
        | Except.error _ => []) ∧
    ∀ d, Event.delay d ∈ upsertTrace existing rows remote → d = 200 := by
  constructor
  · have h := delaysAfterCall_go existing remote rows 0 rows.length i
      (Nat.lt_of_succ_lt hi) (by omega) (by omega)
    simpa using h
  · intro d hd
    exact upsertTraceGo_delay_mem existing remote rows.length rows 0 d hd

/-- Witness for the amended C8: with two rows and an always-succeeding
oracle, exactly one 200 ms delay separates the two calls. -/
theorem upsert_delay_after_success_witness :
    delaysAfterCall 0
        (upsertTrace [] [[("a", "1")], [("b", "2")]] (fun _ _ => Except.ok ())) =
      (match ((fun _ _ => Except.ok ()) : Nat → IssuedCall → Except String Unit) 0
          (decideCall []
            (([[("a", "1")], [("b", "2")]] : List Row).get ⟨0, by decide⟩)) with
        | Except.ok _ => [200]
        | Except.error _ => []) ∧
    ∀ d, Event.delay d ∈
        upsertTrace [] [[("a", "1")], [("b", "2")]] (fun _ _ => Except.ok ()) →
      d = 200 :=
  upsert_delay_after_success [] [[("a", "1")], [("b", "2")]]
    (fun _ _ => Except.ok ()) 0 (by decide)

/-! Lemmas about `setKey` and `transformData`. -/

theorem lookup_setKey (r : Row) (k k' v : String) :
    List.lookup k (setKey r k' v) = if k' = k then some v else List.lookup k r := by
  induction r with
  | nil =>
    by_cases h : k' = k
    · subst h
      simp [setKey, List.lookup_cons]
    · have hb : (k == k') = false := by
        simp only [beq_eq_false_iff_ne]
        exact fun hh => h hh.symm
      simp [setKey, List.lookup_cons, hb, h]
  | cons kv rest ih =>
    obtain ⟨k0, v0⟩ := kv
    by_cases h0 : k0 = k'
    · subst h0
      have hb0 : (k0 == k0) = true := by simp
      simp only [setKey, hb0, if_true]
      by_cases hk : k0 = k
      · subst hk
        simp [List.lookup_cons]
      · have hb : (k == k0) = false := by
          simp only [beq_eq_false_iff_ne]
          exact fun hh => hk hh.symm
        simp [List.lookup_cons, hb, hk]
    · have hb0 : (k0 == k') = false := by
        simp only [beq_eq_false_iff_ne]
        exact h0
      simp only [setKey, hb0, Bool.false_eq_true, if_false]
      by_cases hk : k = k0
      · subst hk
        have hkne : ¬ k' = k := fun hh => h0 hh.symm
        simp [List.lookup_cons, hkne]
      · have hb : (k == k0) = false := by
          simp only [beq_eq_false_iff_ne]
          exact hk
        simp [List.lookup_cons, hb, ih]

theorem lookup_transform_fold (row : Row) (k : String) :
    ∀ (fm : List (String × String)) (acc : Row), (∀ p ∈ fm, p.2 ≠ k) →
      List.lookup k
        (fm.foldl
          (fun acc st =>
            if st.2 != "" && (List.lookup st.1 row).isSome then
              setKey acc st.2 ((List.lookup st.1 row).getD "")
            else acc)
          acc) = List.lookup k acc := by
  intro fm
  induction fm with
  | nil => intro acc h; rfl
  | cons p rest ih =>
    intro acc h
    rw [List.foldl_cons]
    rw [ih _ (fun q hq => h q (by simp [hq]))]
    by_cases hc : (p.2 != "" && (List.lookup p.1 row).isSome) = true
    · rw [if_pos hc, lookup_setKey]
      rw [if_neg (h p (by simp))]
    · rw [if_neg hc]

theorem lookup_id_transformOne (isUpdateMode : Bool)
    (fieldMapping : List (String × String)) (row : Row)
    (hmap : ∀ p ∈ fieldMapping, p.2 ≠ "id") :
    List.lookup "id" (transformOne isUpdateMode fieldMapping row) =
      if isUpdateMode && truthy (List.lookup "id" row) then List.lookup "id" row
      else none := by
  unfold transformOne
  rw [lookup_transform_fold row "id" fieldMapping _ hmap]
  by_cases hc : (isUpdateMode && truthy (List.lookup "id" row)) = true
  · rw [if_pos hc, if_pos hc, lookup_setKey, if_pos rfl]
    have htr : truthy (List.lookup "id" row) = true := by
      have hc' := hc
      simp only [Bool.and_eq_true] at hc'
      exact hc'.2
    cases hl : List.lookup "id" row with
    | none => rw [hl] at htr; simp [truthy] at htr
    | some s => simp [hl]
  · rw [if_neg hc, if_neg hc]
    rfl

/-- C10 — when update mode is off, a transformed row never carries an `id`
key (even if the parsed source row has an `id` column), so a create-only dry
run reports zero rows in the "has id" class; the `id` key is copied onto the
transformed row exactly when update mode is on and the source row's `id` is
truthy, in which case it keeps the source value.  The field mapping is
assumed not to target a destination field slug named `id` (`id` is the item
identifier, not a CMS field). -/
theorem transform_strips_id_without_update_mode
    (fieldMapping : List (String × String)) (rows : List Row) (row : Row)
    (hmap : ∀ p ∈ fieldMapping, p.2 ≠ "id") :
    List.lookup "id" (transformOne false fieldMapping row) = none ∧
    (dryRun (transformData false fieldMapping rows)).itemsWithId = 0 ∧
    List.lookup "id" (transformOne true fieldMapping row) =
      (if truthy (List.lookup "id" row) then List.lookup "id" row else none) := by
  refine ⟨?_, ?_, ?_⟩
  · rw [lookup_id_transformOne false fieldMapping row hmap]
    simp
  · have hnone : (transformData false fieldMapping rows).filter hasId = [] := by
      rw [List.filter_eq_nil_iff]
      intro a ha
      obtain ⟨r, hr, rfl⟩ := List.mem_map.1 ha
      have h0 := lookup_id_transformOne false fieldMapping r hmap
      simp only [Bool.false_and, if_false] at h0
      simp [hasId, h0, truthy]
    simp only [dryRun, hnone]
    rfl
  · rw [lookup_id_transformOne true fieldMapping row hmap]
    simp

/-- Witness for C10: a one-column mapping to `title` strips the source `id`
with update mode off and keeps it with update mode on. -/
theorem transform_strips_id_without_update_mode_witness :
    List.lookup "id" (transformOne false [("title", "title")] [("id", "a"), ("title", "T")]) =
      none ∧
    (dryRun (transformData false [("title", "title")] [[("id", "a"), ("title", "T")]])).itemsWithId = 0 ∧
    List.lookup "id" (transformOne true [("title", "title")] [("id", "a"), ("title", "T")]) =
      (if truthy (List.lookup "id" [(("id" : String), ("a" : String)), ("title", "T")]) then
        List.lookup "id" [(("id" : String), ("a" : String)), ("title", "T")]
      else none) :=
  transform_strips_id_without_update_mode [("title", "title")]
    [[("id", "a"), ("title", "T")]] [("id", "a"), ("title", "T")] (by decide)

end Webflow
